import Mathlib

/-
Verification of the coffee-traceability blockchain core
(src/backend/blockchain/blockchain.py and src/blockchain.py).

The embedding is executable throughout: SHA-256 is implemented as a pure
function over byte lists (naturals below 256), the canonical JSON
serialization mirrors json.dumps(..., sort_keys=True) with its default
ensure_ascii escaping and ", " / ": " separators, and every ledger
operation is a total Lean function translated from the Python source.
Timestamps (datetime.now()) are passed in as explicit string parameters;
file I/O is modelled by passing the parsed snapshot value (or None for an
unreadable / unparsable file) to the load routine.
-/

namespace CoffeeChain

/-! ## SHA-256 over byte lists -/

/-- Truncation to a 32-bit word. -/
def w32 (n : Nat) : Nat := n % 4294967296

/-- Right rotation of a 32-bit word. -/
def rotr (k x : Nat) : Nat := w32 ((x >>> k) ||| (x <<< (32 - k)))

def shaCh (x y z : Nat) : Nat := (x &&& y) ^^^ ((4294967295 ^^^ x) &&& z)

def shaMaj (x y z : Nat) : Nat := (x &&& y) ^^^ (x &&& z) ^^^ (y &&& z)

def bsig0 (x : Nat) : Nat := rotr 2 x ^^^ rotr 13 x ^^^ rotr 22 x

def bsig1 (x : Nat) : Nat := rotr 6 x ^^^ rotr 11 x ^^^ rotr 25 x

def ssig0 (x : Nat) : Nat := rotr 7 x ^^^ rotr 18 x ^^^ (x >>> 3)

def ssig1 (x : Nat) : Nat := rotr 17 x ^^^ rotr 19 x ^^^ (x >>> 10)

/-- The 64 SHA-256 round constants (FIPS 180-4), packed big-endian, word 0
in the topmost 32 bits. -/
def sha256KPacked : Nat :=
  0x428a2f9871374491b5c0fbcfe9b5dba53956c25b59f111f1923f82a4ab1c5ed5d807aa9812835b01243185be550c7dc372be5d7480deb1fe9bdc06a7c19bf174e49b69c1efbe47860fc19dc6240ca1cc2de92c6f4a7484aa5cb0a9dc76f988da983e5152a831c66db00327c8bf597fc7c6e00bf3d5a7914706ca63511429296727b70a852e1b21384d2c6dfc53380d13650a7354766a0abb81c2c92e92722c85a2bfe8a1a81a664bc24b8b70c76c51a3d192e819d6990624f40e3585106aa07019a4c1161e376c082748774c34b0bcb5391c0cb34ed8aa4a5b9cca4f682e6ff3748f82ee78a5636f84c878148cc7020890befffaa4506cebbef9a3f7c67178f2

/-- The 64 SHA-256 round constants as a word list. -/
def sha256K : List Nat :=
  (List.range 64).map (fun i => (sha256KPacked >>> (32 * (63 - i))) &&& 4294967295)

/-- The initial SHA-256 hash state (FIPS 180-4), packed big-endian, word 0
in the topmost 32 bits. -/
def sha256H0Packed : Nat := 0x6a09e667bb67ae853c6ef372a54ff53a510e527f9b05688c1f83d9ab5be0cd19

/-- The initial SHA-256 hash state as a word list. -/
def sha256H0 : List Nat :=
  (List.range 8).map (fun i => (sha256H0Packed >>> (32 * (7 - i))) &&& 4294967295)

/-- A natural written as 8 big-endian bytes (the message-length trailer). -/
def beBytes8 (n : Nat) : List Nat :=
  (List.range 8).map (fun i => (n >>> (8 * (7 - i))) % 256)

/-- SHA-256 padding: append 0x80, zeros to 56 mod 64, then the bit length. -/
def padBytes (msg : List Nat) : List Nat :=
  let k := (119 - msg.length % 64) % 64
  msg ++ [128] ++ List.replicate k 0 ++ beBytes8 (8 * msg.length)

/-- The 16 big-endian words of one 64-byte chunk. -/
def bytesToWords16 (chunk : List Nat) : List Nat :=
  (List.range 16).map (fun j =>
    chunk.getD (4 * j) 0 * 16777216 + chunk.getD (4 * j + 1) 0 * 65536 +
    chunk.getD (4 * j + 2) 0 * 256 + chunk.getD (4 * j + 3) 0)

/-- Extend a message schedule by `k` further words. `recent` holds the most
recent 16 words, newest first; `acc` holds all words produced so far, newest
first. -/
def extendSchedule (recent acc : List Nat) : Nat → List Nat
  | 0 => acc.reverse
  | k + 1 =>
    let wi := w32 (ssig1 (recent.getD 1 0) + recent.getD 6 0 +
                   ssig0 (recent.getD 14 0) + recent.getD 15 0)
    extendSchedule (wi :: recent.take 15) (wi :: acc) k

/-- The full 64-word message schedule of one chunk. -/
def schedule (chunk : List Nat) : List Nat :=
  let w16 := (bytesToWords16 chunk).reverse
  extendSchedule w16 w16 48

/-- One SHA-256 compression round. -/
def compressRound (st : Nat × Nat × Nat × Nat × Nat × Nat × Nat × Nat)
    (kw : Nat × Nat) : Nat × Nat × Nat × Nat × Nat × Nat × Nat × Nat :=
  let (a, b, c, d, e, f, g, h) := st
  let t1 := w32 (h + bsig1 e + shaCh e f g + kw.1 + kw.2)
  let t2 := w32 (bsig0 a + shaMaj a b c)
  (w32 (t1 + t2), a, b, c, w32 (d + t1), e, f, g)

/-- Process one 64-byte chunk into the running hash state. -/
def compressChunk (hs : List Nat) (chunk : List Nat) : List Nat :=
  let ws := schedule chunk
  let s0 := (hs.getD 0 0, hs.getD 1 0, hs.getD 2 0, hs.getD 3 0,
             hs.getD 4 0, hs.getD 5 0, hs.getD 6 0, hs.getD 7 0)
  let (a, b, c, d, e, f, g, h) := (sha256K.zip ws).foldl compressRound s0
  [w32 (hs.getD 0 0 + a), w32 (hs.getD 1 0 + b), w32 (hs.getD 2 0 + c),
   w32 (hs.getD 3 0 + d), w32 (hs.getD 4 0 + e), w32 (hs.getD 5 0 + f),
   w32 (hs.getD 6 0 + g), w32 (hs.getD 7 0 + h)]

/-- SHA-256 digest of a byte list, as the eight 32-bit state words. -/
def sha256Words (msg : List Nat) : List Nat :=
  let p := padBytes msg
  (List.range (p.length / 64)).foldl
    (fun hs i => compressChunk hs ((p.drop (64 * i)).take 64)) sha256H0

/-- Lowercase hex digit. -/
def hexDigitChar (n : Nat) : Char :=
  Char.ofNat (if n < 10 then 48 + n else 87 + n)

/-- A 32-bit word as 8 lowercase hex characters. -/
def natToHex8 (n : Nat) : List Char :=
  (List.range 8).map (fun i => hexDigitChar ((n >>> (28 - 4 * i)) &&& 15))

/-- SHA-256 hex digest (64 lowercase hex characters) of a byte list. -/
def sha256HexOfBytes (msg : List Nat) : String :=
  String.mk (((sha256Words msg).map natToHex8).flatten)

/-- The code points of a string. The canonical serializer below escapes every
character outside printable ASCII, so on its output this agrees with UTF-8
encoding, which is what the source hashes. -/
def strBytes (s : String) : List Nat := s.data.map Char.toNat

/-- `hashlib.sha256(s.encode("utf-8")).hexdigest()` for the ASCII strings the
serializer produces. -/
def sha256hex (s : String) : String := sha256HexOfBytes (strBytes s)

end CoffeeChain

set_option maxRecDepth 1000000

namespace CoffeeChain

/-! ## Canonical JSON serialization

The source hashes `json.dumps(fields, sort_keys=True)` encoded as UTF-8.
`json.dumps` with its defaults uses separators ", " and ": ", escapes every
character outside printable ASCII (`ensure_ascii=True`), writes integers in
decimal, and sorts dictionary keys by code-point order. -/

/-- Decimal digits of a positive natural, most significant first. -/
def natToStrAux : Nat → Nat → List Char
  | 0, _ => []
  | _ + 1, 0 => []
  | fuel + 1, n => natToStrAux fuel (n / 10) ++ [Char.ofNat (48 + n % 10)]

/-- A natural in decimal, as Python prints an `int`. -/
def natToStr (n : Nat) : String :=
  if n = 0 then "0" else String.mk (natToStrAux (n + 1) n)

/-- An integer in decimal, as Python prints an `int`. -/
def intToStr : Int → String
  | .ofNat n => natToStr n
  | .negSucc n => "-" ++ natToStr (n + 1)

/-- A `\uXXXX` escape (lowercase hex), as `json.dumps` emits for non-ASCII
and control characters. -/
def uEscape (n : Nat) : List Char :=
  ['\\', 'u', hexDigitChar ((n >>> 12) &&& 15), hexDigitChar ((n >>> 8) &&& 15),
   hexDigitChar ((n >>> 4) &&& 15), hexDigitChar (n &&& 15)]

/-- `json.dumps` escaping of one character (`ensure_ascii=True`): quote and
backslash get a backslash, the named control characters their short forms,
other controls and everything past `~` a `\uXXXX` escape, astral characters a
surrogate pair. -/
def escChar (c : Char) : List Char :=
  let n := c.toNat
  if n = 34 then ['\\', '"']
  else if n = 92 then ['\\', '\\']
  else if n = 8 then ['\\', 'b']
  else if n = 9 then ['\\', 't']
  else if n = 10 then ['\\', 'n']
  else if n = 12 then ['\\', 'f']
  else if n = 13 then ['\\', 'r']
  else if n < 32 then uEscape n
  else if n < 127 then [c]
  else if n < 65536 then uEscape n
  else uEscape (55296 + ((n - 65536) >>> 10)) ++ uEscape (56320 + ((n - 65536) &&& 1023))

/-- A JSON string literal: quoted, with `json.dumps` escaping. -/
def escapeStr (s : String) : String :=
  String.mk ('"' :: (s.data.map escChar).flatten ++ ['"'])

/-- JSON values occurring in traceability payloads: strings, integers and
arrays (the example records use exactly these). -/
inductive JVal where
  | s (str : String)
  | n (int : Int)
  | arr (items : List JVal)
deriving Repr

mutual

/-- Boolean equality on JSON values. -/
def beqJ : JVal → JVal → Bool
  | .s a, .s b => a == b
  | .n a, .n b => a == b
  | .arr a, .arr b => beqL a b
  | _, _ => false

/-- Boolean equality on lists of JSON values. -/
def beqL : List JVal → List JVal → Bool
  | [], [] => true
  | x :: xs, y :: ys => beqJ x y && beqL xs ys
  | _, _ => false

end

mutual

theorem beqJ_iff : ∀ (a b : JVal), beqJ a b = true ↔ a = b
  | .s x, .s y => by simp [beqJ]
  | .s _, .n _ => by simp [beqJ]
  | .s _, .arr _ => by simp [beqJ]
  | .n _, .s _ => by simp [beqJ]
  | .n x, .n y => by simp [beqJ]
  | .n _, .arr _ => by simp [beqJ]
  | .arr _, .s _ => by simp [beqJ]
  | .arr _, .n _ => by simp [beqJ]
  | .arr x, .arr y => by
    rw [beqJ]
    simpa using beqL_iff x y

theorem beqL_iff : ∀ (a b : List JVal), beqL a b = true ↔ a = b
  | [], [] => by simp [beqL]
  | [], _ :: _ => by simp [beqL]
  | _ :: _, [] => by simp [beqL]
  | x :: xs, y :: ys => by
    rw [beqL]
    simp [Bool.and_eq_true, beqJ_iff x y, beqL_iff xs ys]

end

instance : DecidableEq JVal := fun a b =>
  decidable_of_iff (beqJ a b = true) (beqJ_iff a b)

/-- A Python dict as the ordered association list of its entries. Python
dicts preserve insertion order and have unique keys. -/
abbrev Dict := List (String × JVal)

/-- Python dict lookup `d[k]` / `d.get(k)`: the value at the unique matching
key. -/
def dictGet (d : Dict) (k : String) : Option JVal :=
  match d with
  | [] => none
  | (k2, v) :: rest => if k2 = k then some v else dictGet rest k

/-- Python dict assignment `d[k] = v`: overwrite in place if the key exists
(keeping its position), otherwise append. -/
def dictSet (d : Dict) (k : String) (v : JVal) : Dict :=
  match d with
  | [] => [(k, v)]
  | (k2, w) :: rest => if k2 = k then (k2, v) :: rest else (k2, w) :: dictSet rest k v

/-- The keys of a dict, in order. -/
def dictKeys (d : Dict) : List String := d.map (fun p => p.1)

/-- Code-point lexicographic order on character lists — how Python compares
strings for `sort_keys=True`. -/
def lexLeb : List Char → List Char → Bool
  | [], _ => true
  | _ :: _, [] => false
  | a :: as, b :: bs =>
    if a.toNat < b.toNat then true
    else if b.toNat < a.toNat then false
    else lexLeb as bs

/-- Code-point lexicographic order on strings. -/
def strLeb (a b : String) : Bool := lexLeb a.data b.data

/-- Key order on dict entries, for `sort_keys=True`. -/
def keyLeP (p q : String × JVal) : Prop := strLeb p.1 q.1 = true

instance : DecidableRel keyLeP := fun p q =>
  inferInstanceAs (Decidable (strLeb p.1 q.1 = true))

/-- Dict entries sorted by key, as `sort_keys=True` serializes them. -/
def sortDict (d : Dict) : Dict := List.insertionSort keyLeP d

mutual

/-- `json.dumps` of one value. -/
def serJVal : JVal → String
  | .s str => escapeStr str
  | .n i => intToStr i
  | .arr items => "[" ++ serJList items ++ "]"

/-- `json.dumps` of the elements of an array, ", "-separated. -/
def serJList : List JVal → String
  | [] => ""
  | [v] => serJVal v
  | v :: rest => serJVal v ++ ", " ++ serJList rest

end

/-- One `"key": value` item. -/
def serPair (p : String × JVal) : String := escapeStr p.1 ++ ": " ++ serJVal p.2

/-- ", "-separated dict items. -/
def serPairs : List (String × JVal) → String
  | [] => ""
  | [p] => serPair p
  | p :: rest => serPair p ++ ", " ++ serPairs rest

/-- `json.dumps(d, sort_keys=True)` of a payload dict. -/
def serDict (d : Dict) : String := "\x7b" ++ serPairs (sortDict d) ++ "\x7d"

/-- `json.dumps({...}, sort_keys=True)` of the five hashed block fields.
`sort_keys` puts the fixed keys in the order data, index, nonce,
previous_hash, timestamp. -/
def blockString (i : Nat) (ts : String) (d : Dict) (ph : String) (nonce : Nat) : String :=
  "\x7b\"data\": " ++ serDict d ++ ", \"index\": " ++ natToStr i ++
  ", \"nonce\": " ++ natToStr nonce ++ ", \"previous_hash\": " ++ escapeStr ph ++
  ", \"timestamp\": " ++ escapeStr ts ++ "\x7d"

/-- `Block.get_hash` as a function of the five hashed fields. -/
def hashFields (i : Nat) (ts : String) (d : Dict) (ph : String) (nonce : Nat) : String :=
  sha256hex (blockString i ts d ph nonce)

end CoffeeChain


namespace CoffeeChain

/-! ## Block and Blockchain

Translated from `src/backend/blockchain/blockchain.py` (the `src/blockchain.py`
variant has the identical `Block`, `add_entry`, `proof_of_work`,
`is_valid_new_block`, `is_chain_valid` and query code). `datetime.now()`
results are explicit parameters; the unbounded mining loop takes explicit
fuel and returns `none` when the fuel runs out. -/

/-- `Block`: the six attributes. `hash` is whatever was last assigned, the
other five feed `get_hash`. -/
structure Block where
  index : Nat
  timestamp : String
  data : Dict
  previous_hash : String
  nonce : Nat
  hash : String
deriving DecidableEq, Repr

/-- `Block.get_hash(self)`: SHA-256 of the canonical serialization of the
five fields, ignoring the stored `hash` attribute. -/
def blockHash (b : Block) : String :=
  hashFields b.index b.timestamp b.data b.previous_hash b.nonce

/-- `Block.__init__`: store the five fields and compute `hash = get_hash()`. -/
def mkBlock (i : Nat) (ts : String) (d : Dict) (ph : String) (nonce : Nat) : Block :=
  ⟨i, ts, d, ph, nonce, hashFields i ts d ph nonce⟩

/-- `hash.startswith("0" * difficulty)`: the proof-of-work predicate. -/
def powOk (difficulty : Nat) (h : String) : Bool :=
  List.isPrefixOf (List.replicate difficulty '0') h.data

/-- The `Blockchain` state: the chain and the difficulty (2 at construction,
possibly overridden by a loaded snapshot). The storage path plays no role in
the chain logic and is not modelled. -/
structure Blockchain where
  chain : List Block
  difficulty : Nat
deriving DecidableEq, Repr

/-- `create_genesis_block`: index 0, the fixed sentinel payload, previous
hash "0", nonce 0, hash computed by the constructor. No mining happens. -/
def createGenesis (ts : String) : Block :=
  mkBlock 0 ts
    [("type", .s "genesis"), ("message", .s "Coffee Traceability Blockchain Genesis Block")]
    "0" 0

/-- `get_latest_block`: `chain[-1]`, which raises IndexError (`none`) on an
empty chain. -/
def getLatestBlock (bc : Blockchain) : Option Block := bc.chain.getLast?

/-- The mining loop of `proof_of_work`: try nonce `n`, recomputing the hash,
then `n+1`, ... until the difficulty predicate holds. `fuel` bounds the
number of attempts; the source loop is unbounded. -/
def powLoop (difficulty : Nat) (b : Block) : Nat → Nat → Option Block
  | 0, _ => none
  | fuel + 1, n =>
    let h := hashFields b.index b.timestamp b.data b.previous_hash n
    if powOk difficulty h then some { b with nonce := n, hash := h }
    else powLoop difficulty b fuel (n + 1)

/-- `proof_of_work`: reset the nonce to 0 and search upward; on success the
block carries the found nonce and its recomputed hash. -/
def proofOfWork (difficulty fuel : Nat) (b : Block) : Option Block :=
  powLoop difficulty b fuel 0

/-- `is_valid_new_block`: the four sequential checks, in source order. -/
def isValidNewBlock (difficulty : Nat) (nb pb : Block) : Bool :=
  if pb.index + 1 != nb.index then false
  else if pb.hash != nb.previous_hash then false
  else if blockHash nb != nb.hash then false
  else if !powOk difficulty nb.hash then false
  else true

/-- The commit branch of `add_entry` (lines 109-124): append and report
success when the candidate validates against the tip, otherwise reject and
leave the chain untouched. -/
def commitStep (bc : Blockchain) (nb pb : Block) : Bool × Blockchain :=
  if isValidNewBlock bc.difficulty nb pb
  then (true, { bc with chain := bc.chain ++ [nb] })
  else (false, bc)

/-- `add_entry(entry_data)`: stamp the payload with `entry_timestamp` and
`entry_type`, build the candidate at `tip.index + 1` chained to `tip.hash`,
mine it, then validate-and-commit. `tsEntry` and `tsBlock` are the two
`datetime.now()` readings; `none` is an IndexError on an empty chain or
mining that did not finish within `fuel` attempts. -/
def addEntry (bc : Blockchain) (tsEntry tsBlock : String) (entry : Dict)
    (fuel : Nat) : Option (Bool × Blockchain) :=
  match bc.chain.getLast? with
  | none => none
  | some pb =>
    let entry2 := dictSet (dictSet entry "entry_timestamp" (.s tsEntry))
                    "entry_type" (.s "coffee_entry")
    let cand := mkBlock (pb.index + 1) tsBlock entry2 pb.hash 0
    match proofOfWork bc.difficulty fuel cand with
    | none => none
    | some nb => some (commitStep bc nb pb)

/-- The three per-block checks of `is_chain_valid`, for one adjacent pair:
stored hash matches recomputation, linkage to the predecessor, proof of
work. -/
def pairOk (difficulty : Nat) (pb cur : Block) : Bool :=
  if cur.hash != blockHash cur then false
  else if cur.previous_hash != pb.hash then false
  else if !powOk difficulty cur.hash then false
  else true

/-- The loop of `is_chain_valid` from a previous block over the rest. -/
def chainOk (difficulty : Nat) : Block → List Block → Bool
  | _, [] => true
  | pb, cur :: rest => pairOk difficulty pb cur && chainOk difficulty cur rest

/-- `is_chain_valid`: iterate indices 1.. checking each block against its
predecessor. The genesis block itself is never checked. -/
def isChainValid (difficulty : Nat) : List Block → Bool
  | [] => true
  | b :: rest => chainOk difficulty b rest

/-- The batch predicate of `get_entry_by_batch`:
`block.data.get("coffee_batch") == batch_id`. A missing key gives `None` and
a non-string value an `int`/`list`, neither of which compares equal to a
Python string. -/
def batchMatch (q : String) (b : Block) : Bool :=
  match dictGet b.data "coffee_batch" with
  | some (.s x) => x == q
  | _ => false

/-- Python `str.lower()` restricted to ASCII, which is all the queries and
payloads exercised here use. -/
def charLower (c : Char) : Char :=
  if 65 ≤ c.toNat && c.toNat ≤ 90 then Char.ofNat (c.toNat + 32) else c

def strLower (s : String) : String := String.mk (s.data.map charLower)

/-- `block.data.get("origin", "").lower()`: the missing key defaults to the
empty string; a non-string value has no `.lower()` and raises
AttributeError (`none`). -/
def originLower (d : Dict) : Option String :=
  match dictGet d "origin" with
  | none => some (strLower "")
  | some (.s x) => some (strLower x)
  | some _ => none

/-- The origin predicate, defined whenever `originLower` is. -/
def originMatch (q : String) (b : Block) : Bool :=
  match originLower b.data with
  | some lx => lx == strLower q
  | none => false

/-- The scan of `get_entry_by_origin` over the non-genesis blocks; `none`
models the AttributeError escaping the loop on a non-string origin value. -/
def scanOrigin (q : String) : List Block → Option (List Block)
  | [] => some []
  | b :: rest =>
    match originLower b.data with
    | none => none
    | some lx =>
      match scanOrigin q rest with
      | none => none
      | some rs => some (if lx == strLower q then b :: rs else rs)

/-- `get_entry_by_batch`: filter the non-genesis blocks on an exact batch
match; `results if results else None` turns an empty result into `None`.
(The source returns `block.to_dict()` views; the blocks carry the same six
fields.) -/
def getEntryByBatch (bc : Blockchain) (q : String) : Option (List Block) :=
  let rs := (bc.chain.drop 1).filter (batchMatch q)
  if rs = [] then none else some rs

/-- `get_entry_by_origin`: case-insensitive exact match over the non-genesis
blocks; outer `none` is the AttributeError, inner `none` the "no results"
`None`. -/
def getEntryByOrigin (bc : Blockchain) (q : String) : Option (Option (List Block)) :=
  match scanOrigin q (bc.chain.drop 1) with
  | none => none
  | some rs => some (if rs = [] then none else some rs)

/-- Every non-genesis block has a string (or absent) origin, so the origin
scan cannot raise. -/
def originsOkb (l : List Block) : Bool := l.all (fun b => (originLower b.data).isSome)

end CoffeeChain

namespace CoffeeChain

/-! ## Persistence

`save_to_file` writes `{chain: [block.to_dict() ...], length, difficulty,
last_updated}`. `load_from_file` parses the file, resets `self.chain = []`,
rebuilds each block by calling the `Block` constructor with the five stored
fields (never reading the stored `hash`), then takes `difficulty` from the
snapshot if present; every exception is caught, printed, and turned into a
`False` return with whatever partial state was built. A parsed snapshot is
modelled by `RawChainData`; `Option` on a field is presence of the JSON key;
an unparsable or unreadable file is the outer `none`. -/

/-- One `block.to_dict()` record as found in a snapshot; a missing key
raises KeyError when accessed. -/
structure RawBlock where
  index? : Option Nat
  timestamp? : Option String
  data? : Option Dict
  previous_hash? : Option String
  nonce? : Option Nat
  hash? : Option String
deriving DecidableEq, Repr

/-- The parsed snapshot object. The `length` and `last_updated` keys are
never read by `load_from_file` and are omitted. -/
structure RawChainData where
  chain : Option (List RawBlock)
  difficulty : Option Nat
deriving DecidableEq, Repr

/-- Rebuilding one block inside the load loop: read the five fields (KeyError
on a missing one) and call the `Block` constructor, which recomputes the
hash. The stored `hash?` is never consulted. -/
def rawToBlock (r : RawBlock) : Option Block :=
  match r.index?, r.timestamp?, r.data?, r.previous_hash?, r.nonce? with
  | some i, some t, some d, some p, some n => some (mkBlock i t d p n)
  | _, _, _, _, _ => none

/-- The load loop: rebuild blocks in order; a KeyError aborts the loop,
keeping the blocks already appended. -/
def loadLoop : List RawBlock → Bool × List Block
  | [] => (true, [])
  | r :: rest =>
    match rawToBlock r with
    | none => (false, [])
    | some b => ((loadLoop rest).1, b :: (loadLoop rest).2)

/-- `load_from_file`: parse (outer `none` = exception before `self.chain`
is reset, leaving the old chain), read `chain_data["chain"]` (missing =
KeyError after the reset, leaving `[]`), run the loop, and update
`difficulty` only when the loop finished and the key is present. Returns
the `True`/`False` status the source returns. -/
def loadFromFile (self : Blockchain) (file : Option RawChainData) : Bool × Blockchain :=
  match file with
  | none => (false, self)
  | some cd =>
    match cd.chain with
    | none => (false, { self with chain := [] })
    | some raws =>
      if (loadLoop raws).1 then
        (true,
         { self with
           chain := (loadLoop raws).2
           difficulty := (match cd.difficulty with
                          | some d => d
                          | none => self.difficulty) })
      else (false, { self with chain := (loadLoop raws).2 })

/-- `block.to_dict()`: all six fields, including the stored hash. -/
def toRaw (b : Block) : RawBlock :=
  ⟨some b.index, some b.timestamp, some b.data, some b.previous_hash,
   some b.nonce, some b.hash⟩

/-- The snapshot `save_to_file` writes. -/
def saveData (bc : Blockchain) : RawChainData :=
  ⟨some (bc.chain.map toRaw), some bc.difficulty⟩

/-- `Blockchain.__init__(storage_path)`: chain starts empty with difficulty
2; when the storage file exists its parsed content (or `none` if unparsable)
is loaded — the returned status is ignored and construction always
completes — otherwise a genesis block is created. `ts` is the genesis
`datetime.now()`. -/
def initBlockchain (ts : String) (file : Option (Option RawChainData)) : Blockchain :=
  let self : Blockchain := ⟨[], 2⟩
  match file with
  | some f => (loadFromFile self f).2
  | none => { self with chain := [createGenesis ts] }

/-- The committed ledger states of the claims: a freshly constructed ledger
(no storage file) followed by any sequence of successful `add_entry` calls. -/
inductive Committed : Blockchain → Prop
  | fresh (ts : String) : Committed (initBlockchain ts none)
  | append (bc : Blockchain) (ts1 ts2 : String) (e : Dict) (fuel : Nat)
      (bc2 : Blockchain) (hc : Committed bc)
      (h : addEntry bc ts1 ts2 e fuel = some (true, bc2)) : Committed bc2

end CoffeeChain

namespace CoffeeChain

/-! ## Order lemmas for the key sort -/

theorem charToNat_inj {a b : Char} (h : a.toNat = b.toNat) : a = b :=
  Char.ext (UInt32.ext h)

theorem lexLeb_cons {x y : Char} {xs ys : List Char} :
    lexLeb (x :: xs) (y :: ys) = true ↔
      x.toNat < y.toNat ∨ (x = y ∧ lexLeb xs ys = true) := by
  simp only [lexLeb]
  by_cases h1 : x.toNat < y.toNat
  · simp [h1]
  · by_cases h2 : y.toNat < x.toNat
    · simp [h1, h2]
      intro h
      subst h
      omega
    · have hxy : x = y := charToNat_inj (by omega)
      simp [h1, h2, hxy]

theorem lexLeb_total : ∀ a b : List Char, lexLeb a b = true ∨ lexLeb b a = true
  | [], _ => Or.inl rfl
  | _ :: _, [] => Or.inr rfl
  | x :: xs, y :: ys => by
    by_cases h1 : x.toNat < y.toNat
    · exact Or.inl (lexLeb_cons.mpr (Or.inl h1))
    · by_cases h2 : y.toNat < x.toNat
      · exact Or.inr (lexLeb_cons.mpr (Or.inl h2))
      · have hxy : x = y := charToNat_inj (by omega)
        rcases lexLeb_total xs ys with h | h
        · exact Or.inl (lexLeb_cons.mpr (Or.inr ⟨hxy, h⟩))
        · exact Or.inr (lexLeb_cons.mpr (Or.inr ⟨hxy.symm, h⟩))

theorem lexLeb_trans : ∀ a b c : List Char,
    lexLeb a b = true → lexLeb b c = true → lexLeb a c = true
  | [], _, _, _, _ => rfl
  | _ :: _, [], _, h1, _ => by simp [lexLeb] at h1
  | _ :: _, _ :: _, [], _, h2 => by simp [lexLeb] at h2
  | x :: xs, y :: ys, z :: zs, h1, h2 => by
    rcases lexLeb_cons.mp h1 with hl | ⟨he, hr⟩ <;>
      rcases lexLeb_cons.mp h2 with hl2 | ⟨he2, hr2⟩
    · exact lexLeb_cons.mpr (Or.inl (by omega))
    · exact lexLeb_cons.mpr (Or.inl (he2 ▸ hl))
    · exact lexLeb_cons.mpr (Or.inl (he ▸ hl2))
    · exact lexLeb_cons.mpr (Or.inr ⟨he.trans he2, lexLeb_trans xs ys zs hr hr2⟩)

theorem lexLeb_antisymm : ∀ a b : List Char,
    lexLeb a b = true → lexLeb b a = true → a = b
  | [], [], _, _ => rfl
  | _ :: _, [], h1, _ => by simp [lexLeb] at h1
  | [], _ :: _, _, h2 => by simp [lexLeb] at h2
  | x :: xs, y :: ys, h1, h2 => by
    rcases lexLeb_cons.mp h1 with hl | ⟨he, hr⟩ <;>
      rcases lexLeb_cons.mp h2 with hl2 | ⟨he2, hr2⟩
    · omega
    · exact absurd hl (by rw [he2]; omega)
    · exact absurd hl2 (by rw [he]; omega)
    · rw [he, lexLeb_antisymm xs ys hr hr2]

theorem strLeb_total (a b : String) : strLeb a b = true ∨ strLeb b a = true :=
  lexLeb_total a.data b.data

theorem strLeb_trans {a b c : String} (h1 : strLeb a b = true)
    (h2 : strLeb b c = true) : strLeb a c = true :=
  lexLeb_trans a.data b.data c.data h1 h2

theorem strLeb_antisymm {a b : String} (h1 : strLeb a b = true)
    (h2 : strLeb b a = true) : a = b := by
  cases a; cases b
  exact congrArg String.mk (lexLeb_antisymm _ _ h1 h2)

instance : IsTotal (String × JVal) keyLeP := ⟨fun p q => strLeb_total p.1 q.1⟩

instance : IsTrans (String × JVal) keyLeP := ⟨fun _ _ _ => strLeb_trans⟩

/-- Strict key order: the key order together with distinct keys. -/
def keyLtP (p q : String × JVal) : Prop := keyLeP p q ∧ p.1 ≠ q.1

instance : IsAntisymm (String × JVal) keyLtP :=
  ⟨fun _ _ h1 h2 => absurd (strLeb_antisymm h1.1 h2.1) h1.2⟩

end CoffeeChain

namespace CoffeeChain

/-! ## The canonical serialization is insertion-order independent -/

theorem sortDict_perm (d : Dict) : (sortDict d).Perm d :=
  List.perm_insertionSort _ _

theorem sortDict_sorted (d : Dict) : List.Sorted keyLeP (sortDict d) :=
  List.sorted_insertionSort _ _

theorem sorted_strict {l : Dict} (hs : List.Sorted keyLeP l)
    (hn : (dictKeys l).Nodup) : List.Sorted keyLtP l := by
  have hp : List.Pairwise (fun a b : String × JVal => a.1 ≠ b.1) l :=
    List.pairwise_map.mp hn
  exact (List.Pairwise.and hs hp).imp (fun h => h)

theorem dictGet_eq_some_of_mem : ∀ {d : Dict}, (dictKeys d).Nodup →
    ∀ {k : String} {v : JVal}, (k, v) ∈ d → dictGet d k = some v := by
  intro d
  induction d with
  | nil => intro _ k v hm; cases hm
  | cons p rest ih =>
    intro hn k v hm
    obtain ⟨k2, w⟩ := p
    simp only [dictKeys, List.map_cons, List.nodup_cons] at hn
    rcases List.mem_cons.mp hm with he | hr
    · cases he
      simp [dictGet]
    · have hne : k2 ≠ k := by
        intro he2
        subst he2
        exact hn.1 (List.mem_map.mpr ⟨(k2, v), hr, rfl⟩)
      simp only [dictGet, if_neg hne]
      exact ih hn.2 hr

theorem mem_of_dictGet_eq_some : ∀ {d : Dict} {k : String} {v : JVal},
    dictGet d k = some v → (k, v) ∈ d := by
  intro d
  induction d with
  | nil => intro k v h; simp [dictGet] at h
  | cons p rest ih =>
    intro k v h
    obtain ⟨k2, w⟩ := p
    by_cases he : k2 = k
    · simp only [dictGet, if_pos he] at h
      injection h with h2
      exact List.mem_cons.mpr (Or.inl (by rw [he, h2]))
    · simp only [dictGet, if_neg he] at h
      exact List.mem_cons.mpr (Or.inr (ih h))

theorem perm_of_same_mapping {d1 d2 : Dict} (h1 : (dictKeys d1).Nodup)
    (h2 : (dictKeys d2).Nodup) (hm : ∀ k, dictGet d1 k = dictGet d2 k) :
    d1.Perm d2 := by
  refine (List.perm_ext_iff_of_nodup (h1.of_map _) (h2.of_map _)).mpr ?_
  rintro ⟨k, v⟩
  constructor
  · intro hmem
    exact mem_of_dictGet_eq_some ((hm k).symm.trans (dictGet_eq_some_of_mem h1 hmem))
  · intro hmem
    exact mem_of_dictGet_eq_some ((hm k).trans (dictGet_eq_some_of_mem h2 hmem))

theorem sortDict_eq_of_same_mapping {d1 d2 : Dict} (h1 : (dictKeys d1).Nodup)
    (h2 : (dictKeys d2).Nodup) (hm : ∀ k, dictGet d1 k = dictGet d2 k) :
    sortDict d1 = sortDict d2 := by
  have hperm : (sortDict d1).Perm (sortDict d2) :=
    (sortDict_perm d1).trans ((perm_of_same_mapping h1 h2 hm).trans (sortDict_perm d2).symm)
  have hk1 : (dictKeys (sortDict d1)).Nodup :=
    (((sortDict_perm d1).map Prod.fst).nodup_iff).mpr h1
  have hk2 : (dictKeys (sortDict d2)).Nodup :=
    (((sortDict_perm d2).map Prod.fst).nodup_iff).mpr h2
  exact List.eq_of_perm_of_sorted hperm
    (sorted_strict (sortDict_sorted d1) hk1) (sorted_strict (sortDict_sorted d2) hk2)

theorem serDict_eq_of_same_mapping {d1 d2 : Dict} (h1 : (dictKeys d1).Nodup)
    (h2 : (dictKeys d2).Nodup) (hm : ∀ k, dictGet d1 k = dictGet d2 k) :
    serDict d1 = serDict d2 := by
  unfold serDict
  rw [sortDict_eq_of_same_mapping h1 h2 hm]

end CoffeeChain

namespace CoffeeChain

/-! ## Mining, validation and commit lemmas -/

theorem powLoop_some {d : Nat} {b : Block} : ∀ {fuel n : Nat} {b2 : Block},
    powLoop d b fuel n = some b2 →
    b2.index = b.index ∧ b2.timestamp = b.timestamp ∧ b2.data = b.data ∧
    b2.previous_hash = b.previous_hash ∧
    b2.hash = hashFields b.index b.timestamp b.data b.previous_hash b2.nonce ∧
    powOk d b2.hash = true ∧ n ≤ b2.nonce ∧
    (∀ m, n ≤ m → m < b2.nonce →
      powOk d (hashFields b.index b.timestamp b.data b.previous_hash m) = false) := by
  intro fuel
  induction fuel with
  | zero => intro n b2 h; simp [powLoop] at h
  | succ fuel ih =>
    intro n b2 h
    rw [powLoop] at h
    by_cases hp : powOk d (hashFields b.index b.timestamp b.data b.previous_hash n) = true
    · rw [if_pos hp] at h
      injection h with h
      subst h
      refine ⟨rfl, rfl, rfl, rfl, rfl, hp, Nat.le_refl n, ?_⟩
      intro m hm1 hm2
      have hm3 : m < n := hm2
      omega
    · rw [if_neg hp] at h
      obtain ⟨h1, h2, h3, h4, h5, h6, h7, h8⟩ := ih h
      refine ⟨h1, h2, h3, h4, h5, h6, by omega, ?_⟩
      intro m hm1 hm2
      rcases Nat.eq_or_lt_of_le hm1 with he | hl
      · subst he
        exact Bool.eq_false_iff.mpr hp
      · exact h8 m hl hm2

theorem isValidNewBlock_iff {d : Nat} {nb pb : Block} :
    isValidNewBlock d nb pb = true ↔
      pb.index + 1 = nb.index ∧ pb.hash = nb.previous_hash ∧
      blockHash nb = nb.hash ∧ powOk d nb.hash = true := by
  unfold isValidNewBlock
  by_cases h1 : pb.index + 1 = nb.index <;>
    by_cases h2 : pb.hash = nb.previous_hash <;>
    by_cases h3 : blockHash nb = nb.hash <;>
    by_cases h4 : powOk d nb.hash = true <;>
    simp [h1, h2, h3, h4]

theorem pairOk_iff {d : Nat} {pb cur : Block} :
    pairOk d pb cur = true ↔
      cur.hash = blockHash cur ∧ cur.previous_hash = pb.hash ∧
      powOk d cur.hash = true := by
  unfold pairOk
  by_cases h1 : cur.hash = blockHash cur <;>
    by_cases h2 : cur.previous_hash = pb.hash <;>
    by_cases h3 : powOk d cur.hash = true <;>
    simp [h1, h2, h3]

/-- `is_chain_valid` is the chain of the three per-pair checks over adjacent
blocks. -/
theorem chainOk_iff_chain' {d : Nat} : ∀ {l : List Block} {p : Block},
    chainOk d p l = true ↔ List.Chain' (fun a b => pairOk d a b = true) (p :: l) := by
  intro l
  induction l with
  | nil => intro p; simp [chainOk]
  | cons cur rest ih =>
    intro p
    rw [chainOk, Bool.and_eq_true, List.chain'_cons]
    exact and_congr Iff.rfl ih

theorem isChainValid_iff_chain' {d : Nat} {c : List Block} :
    isChainValid d c = true ↔ List.Chain' (fun a b => pairOk d a b = true) c := by
  cases c with
  | nil => simp [isChainValid]
  | cons b rest => exact (chainOk_iff_chain' (p := b)).trans Iff.rfl

theorem chainOk_append {d : Nat} : ∀ {l : List Block} {p nb : Block},
    chainOk d p (l ++ [nb]) = (chainOk d p l && pairOk d (l.getLastD p) nb) := by
  intro l
  induction l with
  | nil => intro p nb; simp [chainOk]
  | cons cur rest ih =>
    intro p nb
    rw [List.cons_append, chainOk, ih, chainOk, List.getLastD_cons, Bool.and_assoc]

theorem isChainValid_append {d : Nat} {c : List Block} {pb nb : Block}
    (hlast : c.getLast? = some pb) :
    isChainValid d (c ++ [nb]) = (isChainValid d c && pairOk d pb nb) := by
  cases c with
  | nil => simp at hlast
  | cons b rest =>
    rw [List.cons_append, isChainValid, isChainValid, chainOk_append]
    have : rest.getLastD b = pb := by
      rw [List.getLastD_eq_getLast?]
      rw [List.getLast?_cons] at hlast
      cases hr : rest.getLast? with
      | none =>
        rw [hr] at hlast
        simp at hlast
        simp [hlast]
      | some x =>
        rw [hr] at hlast
        simp at hlast
        simp [hlast]
    rw [this]

/-- A successful `add_entry` appends exactly one validated, freshly mined
block to the chain and keeps the difficulty. -/
theorem addEntry_success {bc : Blockchain} {ts1 ts2 : String} {e : Dict}
    {fuel : Nat} {bc2 : Blockchain}
    (h : addEntry bc ts1 ts2 e fuel = some (true, bc2)) :
    ∃ pb nb, bc.chain.getLast? = some pb ∧
      bc2 = { bc with chain := bc.chain ++ [nb] } ∧
      isValidNewBlock bc.difficulty nb pb = true ∧
      nb.hash = blockHash nb := by
  unfold addEntry at h
  cases hlast : bc.chain.getLast? with
  | none => rw [hlast] at h; simp at h
  | some pb =>
    rw [hlast] at h
    simp only at h
    cases hpow : proofOfWork bc.difficulty fuel
        (mkBlock (pb.index + 1) ts2
          (dictSet (dictSet e "entry_timestamp" (.s ts1)) "entry_type" (.s "coffee_entry"))
          pb.hash 0) with
    | none => rw [hpow] at h; simp at h
    | some nb =>
      rw [hpow] at h
      simp only [Option.some.injEq] at h
      unfold commitStep at h
      by_cases hv : isValidNewBlock bc.difficulty nb pb = true
      · rw [if_pos hv] at h
        injection h with h1 h2
        exact ⟨pb, nb, rfl, h2.symm, hv, (isValidNewBlock_iff.mp hv).2.2.1.symm⟩
      · rw [if_neg hv] at h
        injection h with h1 h2
        exact absurd h1 (by simp)

/-- Every block of a committed ledger stores exactly its recomputed hash. -/
theorem committed_block_hash {bc : Blockchain} (hc : Committed bc) :
    ∀ b ∈ bc.chain, b.hash = blockHash b := by
  induction hc with
  | fresh ts =>
    intro b hb
    simp only [initBlockchain, List.mem_singleton] at hb
    subst hb
    rfl
  | append bc ts1 ts2 e fuel bc2 hcp h ih =>
    obtain ⟨pb, nb, hlast, hbc2, hv, hnb⟩ := addEntry_success h
    subst hbc2
    intro b hb
    rcases List.mem_append.mp hb with hl | hr
    · exact ih b hl
    · rw [List.mem_singleton.mp hr]
      exact hnb

/-- Every committed ledger passes `is_chain_valid` at its own difficulty. -/
theorem committed_valid {bc : Blockchain} (hc : Committed bc) :
    isChainValid bc.difficulty bc.chain = true := by
  induction hc with
  | fresh ts => rfl
  | append bc ts1 ts2 e fuel bc2 hcp h ih =>
    obtain ⟨pb, nb, hlast, hbc2, hv, hnb⟩ := addEntry_success h
    subst hbc2
    show isChainValid bc.difficulty (bc.chain ++ [nb]) = true
    rw [isChainValid_append hlast, ih, Bool.true_and]
    obtain ⟨hi, hph, hbh, hpw⟩ := isValidNewBlock_iff.mp hv
    exact pairOk_iff.mpr ⟨hbh.symm, hph.symm, hpw⟩

end CoffeeChain

namespace CoffeeChain

/-! ## Concrete fixtures

A 4-block chain at difficulty 0 (difficulty is a mutable field of the state,
reconstructed from snapshots on load, so 0 is a reachable setting; it keeps
the evaluation of witnesses cheap). The stored hashes are written out as hex
literals; the claim witnesses check by evaluation that each equals the
recomputed hash of its block's fields, and that the linkage matches. -/

def gW : Block :=
  ⟨0, "t0", [], "0", 0,
   "12e0eba3ee26ade64cf95f4b195c5ba90156aa927802b2e072a0615adbc6d5e5"⟩

def b1W : Block :=
  ⟨1, "t1", [("origin", .s "Farm A"), ("coffee_batch", .s "BATCH-001")],
   "12e0eba3ee26ade64cf95f4b195c5ba90156aa927802b2e072a0615adbc6d5e5", 0,
   "930e5a0aeb2abbb39600266120564c9f164e920ffbf5899344b51742559f3854"⟩

def b2W : Block :=
  ⟨2, "t2", [("origin", .s "farm b"), ("coffee_batch", .s "BATCH-002")],
   "930e5a0aeb2abbb39600266120564c9f164e920ffbf5899344b51742559f3854", 0,
   "050318eeea36cc8031a6de2f26fe677d3f4dc9adac685ea5c37519a20827aa60"⟩

def b3W : Block :=
  ⟨3, "t3", [("weight_kg", .n 5)],
   "050318eeea36cc8031a6de2f26fe677d3f4dc9adac685ea5c37519a20827aa60", 0,
   "e6f2f2c8f3875f5a370dc4cf4bec5b4ca3697caa8cf1306aa5e11c61b7ec3904"⟩

def bcW : Blockchain := ⟨[gW, b1W, b2W, b3W], 0⟩

/-- An obviously invalid candidate: wrong index, wrong linkage, stale hash. -/
def badCand : Block := ⟨5, "t9", [], "x", 0, "nohash"⟩

/-! ## C5: rejected append leaves the state unchanged -/

/-- **C5.** If the candidate block fails the validator check, the commit
branch of `add_entry` returns the typed failure (`success = false`) with the
chain object untouched; and whenever `add_entry` reports failure the state —
in particular chain length and tip — is exactly the state before the call. -/
theorem rejected_append_leaves_state_unchanged (bc : Blockchain) (nb pb : Block)
    (hv : isValidNewBlock bc.difficulty nb pb = false) :
    commitStep bc nb pb = (false, bc) ∧
    ∀ ts1 ts2 e fuel flag bc2, addEntry bc ts1 ts2 e fuel = some (flag, bc2) →
      flag = false → bc2 = bc ∧ bc2.chain.length = bc.chain.length ∧
      bc2.chain.getLast? = bc.chain.getLast? := by
  constructor
  · unfold commitStep
    rw [if_neg (by simp [hv])]
  · intro ts1 ts2 e fuel flag bc2 h hf
    subst hf
    unfold addEntry at h
    cases hlast : bc.chain.getLast? with
    | none => rw [hlast] at h; simp at h
    | some pb2 =>
      rw [hlast] at h
      simp only at h
      cases hpow : proofOfWork bc.difficulty fuel
          (mkBlock (pb2.index + 1) ts2
            (dictSet (dictSet e "entry_timestamp" (.s ts1)) "entry_type" (.s "coffee_entry"))
            pb2.hash 0) with
      | none => rw [hpow] at h; simp at h
      | some nb2 =>
        rw [hpow] at h
        simp only [Option.some.injEq] at h
        unfold commitStep at h
        by_cases hv2 : isValidNewBlock bc.difficulty nb2 pb2 = true
        · rw [if_pos hv2] at h
          injection h with h1 h2
          exact absurd h1.symm (by simp)
        · rw [if_neg hv2] at h
          injection h with h1 h2
          subst h2
          exact ⟨rfl, rfl, hlast⟩

/-- C5 witness: a corrupted candidate against the concrete ledger. -/
theorem rejected_append_leaves_state_unchanged_w :
    isValidNewBlock bcW.difficulty badCand gW = false ∧
    commitStep bcW badCand gW = (false, bcW) :=
  ⟨by decide, (rejected_append_leaves_state_unchanged bcW badCand gW (by decide)).1⟩

/-! ## C8: proof of work -/

theorem powLoop_congr {b3 b : Block} (e1 : b3.index = b.index)
    (e2 : b3.timestamp = b.timestamp) (e3 : b3.data = b.data)
    (e4 : b3.previous_hash = b.previous_hash) (d : Nat) :
    ∀ fuel n, powLoop d b3 fuel n = powLoop d b fuel n := by
  intro fuel
  induction fuel with
  | zero => intro n; rfl
  | succ fuel ih =>
    intro n
    simp only [powLoop, e1, e2, e3, e4]
    rw [ih (n + 1)]

/-- **C8.** When mining succeeds, the returned block keeps the candidate's
four content fields, carries the smallest nonce whose recomputed hash meets
the difficulty predicate, stores exactly that recomputed hash, and the
search is deterministic: any candidate with the same four content fields
mines to the identical block. -/
theorem proof_of_work_minimal_deterministic (d fuel : Nat) (b b2 : Block)
    (h : proofOfWork d fuel b = some b2) :
    b2.index = b.index ∧ b2.timestamp = b.timestamp ∧ b2.data = b.data ∧
    b2.previous_hash = b.previous_hash ∧
    b2.hash = hashFields b.index b.timestamp b.data b.previous_hash b2.nonce ∧
    powOk d b2.hash = true ∧
    (∀ m, m < b2.nonce →
      powOk d (hashFields b.index b.timestamp b.data b.previous_hash m) = false) ∧
    (∀ b3 : Block, b3.index = b.index → b3.timestamp = b.timestamp →
      b3.data = b.data → b3.previous_hash = b.previous_hash →
      proofOfWork d fuel b3 = some b2) := by
  obtain ⟨h1, h2, h3, h4, h5, h6, h7, h8⟩ := powLoop_some h
  refine ⟨h1, h2, h3, h4, h5, h6, fun m hm => h8 m (Nat.zero_le m) hm, ?_⟩
  intro b3 e1 e2 e3 e4
  rw [proofOfWork, powLoop_congr e1 e2 e3 e4]
  exact h

/-- The C8 candidate: a stale nonce and hash, which mining resets. -/
def candW : Block := ⟨1, "t1", [], "x", 7, "stale"⟩

/-- The block mining `candW` at difficulty 0 returns. -/
def minedW : Block :=
  ⟨1, "t1", [], "x", 0,
   "5d72871b0ea3c269fc23040c979fa46e5716965ea540142212b3d64fa4b1a5c0"⟩

/-- C8 witness: mining the concrete candidate at difficulty 0 returns
`minedW`, whose hash satisfies the difficulty predicate. -/
theorem proof_of_work_minimal_deterministic_w :
    proofOfWork 0 1 candW = some minedW ∧ powOk 0 minedW.hash = true := by
  have h : proofOfWork 0 1 candW = some minedW := by decide
  exact ⟨h, (proof_of_work_minimal_deterministic 0 1 candW minedW h).2.2.2.2.2.1⟩

/-! ## C6: the genesis block is not mined -/

/-- **C6 counterexample.** A freshly constructed ledger (difficulty 2): its
genesis block's hash does not have 2 leading zero hex characters — the code
never runs `proof_of_work` on the genesis block, contradicting "mined like
any other block". -/
theorem genesis_not_mined_cx :
    initBlockchain "2025-01-01T00:00:00" none =
      ⟨[createGenesis "2025-01-01T00:00:00"], 2⟩ ∧
    powOk 2 (createGenesis "2025-01-01T00:00:00").hash = false :=
  ⟨rfl, by decide⟩

/-- **C6 amended.** Construction creates the genesis block with the fixed
sentinel payload, `previous_hash = "0"`, nonce 0 and the constructor-computed
hash; no proof of work is applied to it and its hash is not required to meet
the difficulty predicate, yet the fresh one-block chain still passes
`is_chain_valid` because validation never examines the genesis block. -/
theorem genesis_unmined_construction (ts : String) :
    (initBlockchain ts none).chain = [createGenesis ts] ∧
    (initBlockchain ts none).difficulty = 2 ∧
    (createGenesis ts).index = 0 ∧
    (createGenesis ts).previous_hash = "0" ∧
    (createGenesis ts).nonce = 0 ∧
    (createGenesis ts).hash = blockHash (createGenesis ts) ∧
    isChainValid (initBlockchain ts none).difficulty (initBlockchain ts none).chain = true :=
  ⟨rfl, rfl, rfl, rfl, rfl, rfl, rfl⟩

end CoffeeChain

namespace CoffeeChain

/-! ## C2: the stored hash is the canonical SHA-256 digest -/

/-- **C2.** A constructed block stores exactly the SHA-256 hex digest of the
canonical key-sorted serialization of its five fields; every block of a
committed ledger stores that digest of its own fields; two payloads that are
equal as mappings (same key set, same value at every key, any insertion
order) hash identically; and `get_hash` never reads the stored `hash`
attribute, so recomputing on unchanged fields always returns the same
value. -/
theorem block_hash_canonical (i : Nat) (ts : String) (d1 d2 : Dict) (ph : String)
    (nonce : Nat) (bcc : Blockchain) (hcc : Committed bcc)
    (h1 : (dictKeys d1).Nodup) (h2 : (dictKeys d2).Nodup)
    (hm : ∀ k, dictGet d1 k = dictGet d2 k) :
    (mkBlock i ts d1 ph nonce).hash = sha256hex (blockString i ts d1 ph nonce) ∧
    (∀ b ∈ bcc.chain,
      b.hash = sha256hex (blockString b.index b.timestamp b.data b.previous_hash b.nonce)) ∧
    (mkBlock i ts d1 ph nonce).hash = (mkBlock i ts d2 ph nonce).hash ∧
    (∀ (b : Block) (h0 : String), blockHash { b with hash := h0 } = blockHash b) := by
  refine ⟨rfl, committed_block_hash hcc, ?_, fun b h0 => rfl⟩
  show hashFields i ts d1 ph nonce = hashFields i ts d2 ph nonce
  unfold hashFields blockString
  rw [serDict_eq_of_same_mapping h1 h2 hm]

/-- The two C2 payloads: the same mapping in opposite insertion orders. -/
def d1W : Dict := [("b", .n 2), ("a", .s "x")]

def d2W : Dict := [("a", .s "x"), ("b", .n 2)]

/-- C2 witness: concrete payloads differing only in insertion order hash
identically on a fresh committed ledger. -/
theorem block_hash_canonical_w :
    (dictKeys d1W).Nodup ∧ (dictKeys d2W).Nodup ∧
    (∀ k, dictGet d1W k = dictGet d2W k) ∧
    Committed (initBlockchain "t" none) ∧
    (mkBlock 1 "t" d1W "p" 0).hash = (mkBlock 1 "t" d2W "p" 0).hash := by
  have hm : ∀ k, dictGet d1W k = dictGet d2W k := by
    intro k
    by_cases hb : "b" = k
    · subst hb; decide
    · by_cases ha : "a" = k
      · subst ha; decide
      · simp [d1W, d2W, dictGet, hb, ha]
  exact ⟨by decide, by decide, hm, Committed.fresh "t",
    (block_hash_canonical 1 "t" d1W d2W "p" 0 (initBlockchain "t" none)
      (Committed.fresh "t") (by decide) (by decide) hm).2.2.1⟩

/-! ## C3: the stored hash is discarded on load, not cross-checked -/

/-- A snapshot record with its `hash` key dropped. -/
def eraseHash (r : RawBlock) : RawBlock := { r with hash? := none }

theorem rawToBlock_eraseHash (r : RawBlock) : rawToBlock (eraseHash r) = rawToBlock r := rfl

theorem loadLoop_hash_correct : ∀ raws : List RawBlock,
    ∀ b ∈ (loadLoop raws).2, b.hash = blockHash b := by
  intro raws
  induction raws with
  | nil => intro b hb; simp [loadLoop] at hb
  | cons r rest ih =>
    intro b hb
    rw [loadLoop] at hb
    cases hr : rawToBlock r with
    | none => rw [hr] at hb; simp at hb
    | some b0 =>
      rw [hr] at hb
      rcases List.mem_cons.mp hb with he | hm
      · subst he
        obtain ⟨i, t, d, p, n, hh⟩ := r
        cases hi : i <;> cases ht : t <;> cases hd : d <;> cases hp : p <;> cases hn : n <;>
          subst hi ht hd hp hn <;> simp [rawToBlock] at hr
        rw [← hr]
        rfl
      · exact ih b hm

theorem loadLoop_all_some : ∀ {raws : List RawBlock},
    (∀ r ∈ raws, (rawToBlock r).isSome = true) → (loadLoop raws).1 = true := by
  intro raws
  induction raws with
  | nil => intro _; rfl
  | cons r rest ih =>
    intro h
    rw [loadLoop]
    cases hr : rawToBlock r with
    | none =>
      have := h r (List.mem_cons_self ..)
      rw [hr] at this
      simp at this
    | some b => exact ih (fun x hx => h x (List.mem_cons_of_mem _ hx))

theorem loadLoop_eraseHash : ∀ raws : List RawBlock,
    loadLoop (raws.map eraseHash) = loadLoop raws := by
  intro raws
  induction raws with
  | nil => rfl
  | cons r rest ih =>
    rw [List.map_cons, loadLoop, loadLoop, rawToBlock_eraseHash, ih]

/-- **C3 amended.** On load each block's hash is recomputed from the five
stored fields and the stored `hash` value is silently discarded — never
retained, never cross-checked: a well-formed snapshot loads with status
`True` whatever its stored hashes say, every loaded block carries the
recomputed digest, and the load result does not change when every stored
hash is deleted from the snapshot. -/
theorem load_recomputes_and_discards_stored_hash (self : Blockchain)
    (cd : RawChainData) (raws : List RawBlock) (hc : cd.chain = some raws)
    (hall : ∀ r ∈ raws, (rawToBlock r).isSome = true) :
    (loadFromFile self (some cd)).1 = true ∧
    (∀ b ∈ (loadFromFile self (some cd)).2.chain, b.hash = blockHash b) ∧
    loadFromFile self (some cd) =
      loadFromFile self (some ⟨some (raws.map eraseHash), cd.difficulty⟩) := by
  obtain ⟨hchain, hdiff⟩ := cd
  cases hc
  refine ⟨?_, ?_, ?_⟩
  · simp only [loadFromFile, loadLoop_all_some hall, if_true]
  · simp only [loadFromFile, loadLoop_all_some hall, if_true]
    exact loadLoop_hash_correct raws
  · simp only [loadFromFile, loadLoop_eraseHash]

/-- The C3 snapshot: a single complete record whose stored hash is wrong. -/
def rawsW3 : List RawBlock :=
  [⟨some 0, some "t0", some [], some "0", some 0, some "00bogus"⟩]

def cdW3 : RawChainData := ⟨some rawsW3, some 2⟩

/-- **C3 counterexample.** Loading that snapshot succeeds (status `True`) and
the loaded block carries the recomputed hash, not the stored "00bogus": no
mismatch is detected and the stored hash is not retained. -/
theorem load_no_crosscheck_cx :
    loadFromFile ⟨[], 2⟩ (some cdW3) = (true, ⟨[mkBlock 0 "t0" [] "0" 0], 2⟩) ∧
    (mkBlock 0 "t0" [] "0" 0).hash ≠ "00bogus" :=
  ⟨rfl, by decide⟩

/-- C3 witness: the same snapshot discharges the amended theorem's
hypotheses. -/
theorem load_recomputes_and_discards_stored_hash_w :
    cdW3.chain = some rawsW3 ∧ (∀ r ∈ rawsW3, (rawToBlock r).isSome = true) ∧
    (loadFromFile ⟨[], 2⟩ (some cdW3)).1 = true :=
  ⟨rfl, by decide,
   (load_recomputes_and_discards_stored_hash ⟨[], 2⟩ cdW3 rawsW3 rfl (by decide)).1⟩

end CoffeeChain

namespace CoffeeChain

/-! ## C4: corrupt files do not fail closed -/

theorem loadLoop_append_fail {r : RawBlock} {rest : List RawBlock}
    (hr : rawToBlock r = none) : ∀ {good : List RawBlock},
    (∀ x ∈ good, (rawToBlock x).isSome = true) →
    loadLoop (good ++ r :: rest) = (false, good.filterMap rawToBlock) := by
  intro good
  induction good with
  | nil =>
    intro _
    rw [List.nil_append, loadLoop, hr, List.filterMap_nil]
  | cons x xs ih =>
    intro hg
    have hx := hg x (List.mem_cons_self ..)
    cases hxb : rawToBlock x with
    | none => rw [hxb] at hx; simp at hx
    | some b =>
      rw [List.cons_append, loadLoop, hxb,
        ih (fun y hy => hg y (List.mem_cons_of_mem _ hy)), List.filterMap_cons, hxb]

/-- **C4 amended.** Construction never fails on a corrupt storage file — load
failures are swallowed. An unparsable file leaves the initial empty chain
(an Active ledger with zero blocks, not an error, and not a fresh genesis);
a snapshot without a "chain" key likewise ends with an empty chain; a
snapshot whose block list contains a malformed record yields exactly the
prefix of complete records as a partially loaded Active chain, with
`load_from_file` returning `False`, a status `__init__` discards, and the
difficulty never updated from the snapshot. -/
theorem load_failures_swallowed (ts : String) :
    ((initBlockchain ts (some none)).chain = [] ∧
     (initBlockchain ts (some none)).difficulty = 2 ∧
     initBlockchain ts (some none) ≠ initBlockchain ts none) ∧
    (∀ cd : RawChainData, cd.chain = none →
      (initBlockchain ts (some (some cd))).chain = []) ∧
    (∀ f : Option RawChainData, initBlockchain ts (some f) = (loadFromFile ⟨[], 2⟩ f).2) ∧
    (∀ (cd : RawChainData) (good : List RawBlock) (r : RawBlock) (rest : List RawBlock),
      cd.chain = some (good ++ r :: rest) →
      (∀ x ∈ good, (rawToBlock x).isSome = true) → rawToBlock r = none →
      (initBlockchain ts (some (some cd))).chain = good.filterMap rawToBlock ∧
      (loadFromFile ⟨[], 2⟩ (some cd)).1 = false ∧
      (initBlockchain ts (some (some cd))).difficulty = 2) := by
  refine ⟨⟨rfl, rfl, ?_⟩, ?_, fun f => rfl, ?_⟩
  · intro h
    have := congrArg (fun x => x.chain.length) h
    simp [initBlockchain, loadFromFile] at this
  · intro cd hc
    obtain ⟨hchain, hdiff⟩ := cd
    cases hc
    rfl
  · intro cd good r rest hc hg hr
    obtain ⟨hchain, hdiff⟩ := cd
    cases hc
    have hfail : loadLoop (good ++ r :: rest) = (false, good.filterMap rawToBlock) :=
      loadLoop_append_fail hr hg
    refine ⟨?_, ?_, ?_⟩ <;>
      simp [initBlockchain, loadFromFile, hfail]

/-- The C4 snapshot: a complete first record, a second record missing its
nonce, and a difficulty entry that the failing load never applies. -/
def rawOkW : RawBlock := ⟨some 0, some "t0", some [], some "0", some 0, some "X"⟩

def rawMissW : RawBlock := ⟨some 1, some "t1", some [], some "0", none, some "Y"⟩

def cdPartW : RawChainData := ⟨some [rawOkW, rawMissW], some 0⟩

/-- **C4 counterexample.** Constructing from that malformed snapshot does not
fail closed: construction completes, `load_from_file` returns `False` (which
`__init__` ignores), and the process continues with an Active ledger holding
a partially loaded chain — 1 of the 2 stored blocks. -/
theorem load_fails_open_cx :
    initBlockchain "t" (some (some cdPartW)) = ⟨[mkBlock 0 "t0" [] "0" 0], 2⟩ ∧
    (loadFromFile ⟨[], 2⟩ (some cdPartW)).1 = false ∧
    (cdPartW.chain.getD []).length = 2 ∧
    (initBlockchain "t" (some (some cdPartW))).chain.length = 1 :=
  ⟨rfl, rfl, rfl, rfl⟩

/-- C4 witness: the same snapshot discharges the amended theorem's
hypotheses. -/
theorem load_failures_swallowed_w :
    cdPartW.chain = some ([rawOkW] ++ rawMissW :: []) ∧
    (∀ x ∈ [rawOkW], (rawToBlock x).isSome = true) ∧
    rawToBlock rawMissW = none ∧
    (initBlockchain "t" (some (some cdPartW))).chain = [rawOkW].filterMap rawToBlock :=
  ⟨rfl, by decide, rfl,
   ((load_failures_swallowed "t").2.2.2 cdPartW [rawOkW] rawMissW [] rfl (by decide) rfl).1⟩

/-! ## C7: save/load round trip -/

theorem loadLoop_map_toRaw : ∀ {l : List Block}, (∀ b ∈ l, b.hash = blockHash b) →
    loadLoop (l.map toRaw) = (true, l) := by
  intro l
  induction l with
  | nil => intro _; rfl
  | cons b rest ih =>
    intro h
    have hb : rawToBlock (toRaw b) =
        some (mkBlock b.index b.timestamp b.data b.previous_hash b.nonce) := rfl
    have hbb : mkBlock b.index b.timestamp b.data b.previous_hash b.nonce = b := by
      have hh := h b (List.mem_cons_self ..)
      obtain ⟨i, t, d, p, n, x⟩ := b
      exact congrArg (Block.mk i t d p n) hh.symm
    rw [List.map_cons, loadLoop, hb, hbb, ih (fun y hy => h y (List.mem_cons_of_mem _ hy))]

/-- **C7 amended.** For every chain whose blocks store their recomputed hash
— which every committed chain does — saving and reloading reconstructs the
state exactly: the same Boolean difficulty-and-chain record, every block
field byte-for-byte equal, and hence the same `is_chain_valid` verdict at
every difficulty. (A chain containing a block whose stored hash was tampered
is NOT reconstructed byte-for-byte: the counterexample.) -/
theorem roundtrip_preserves (bc : Blockchain)
    (h : ∀ b ∈ bc.chain, b.hash = blockHash b) :
    loadFromFile ⟨[], 2⟩ (some (saveData bc)) = (true, bc) ∧
    ∀ d, isChainValid d (loadFromFile ⟨[], 2⟩ (some (saveData bc))).2.chain =
      isChainValid d bc.chain := by
  have hload : loadFromFile ⟨[], 2⟩ (some (saveData bc)) = (true, bc) := by
    simp only [loadFromFile, saveData, loadLoop_map_toRaw h]
    rfl
  exact ⟨hload, fun d => by rw [hload]⟩

/-- The C7 round-trip witness chain: both blocks store their recomputed
hash. -/
def bc7W : Blockchain := ⟨[gW, b1W], 0⟩

/-- C7 witness: the concrete chain's stored hashes are the recomputed ones
and the round trip reproduces it exactly. -/
theorem roundtrip_preserves_w :
    (∀ b ∈ bc7W.chain, b.hash = blockHash b) ∧
    loadFromFile ⟨[], 2⟩ (some (saveData bc7W)) = (true, bc7W) := by
  have h : ∀ b ∈ bc7W.chain, b.hash = blockHash b := by decide
  exact ⟨h, (roundtrip_preserves bc7W h).1⟩

/-- The C7 counterexample chain: the second block's stored hash tampered to
"deadbeef". -/
def b1Bad : Block := { b1W with hash := "deadbeef" }

def bcBad : Blockchain := ⟨[gW, b1Bad], 0⟩

/-- **C7 counterexample.** Saving the tampered chain and loading it back
does not reconstruct it: the loaded second block carries the recomputed
hash, not "deadbeef" (fields not byte-for-byte equal), and the
`is_chain_valid` verdict flips from `false` before saving to `true` after
reloading. -/
theorem roundtrip_not_bytewise_cx :
    loadFromFile ⟨[], 2⟩ (some (saveData bcBad)) =
      (true, ⟨[mkBlock 0 "t0" [] "0" 0,
               mkBlock 1 "t1" [("origin", .s "Farm A"), ("coffee_batch", .s "BATCH-001")]
                 "12e0eba3ee26ade64cf95f4b195c5ba90156aa927802b2e072a0615adbc6d5e5" 0], 0⟩) ∧
    (mkBlock 1 "t1" [("origin", .s "Farm A"), ("coffee_batch", .s "BATCH-001")]
       "12e0eba3ee26ade64cf95f4b195c5ba90156aa927802b2e072a0615adbc6d5e5" 0).hash ≠
      b1Bad.hash ∧
    isChainValid bcBad.difficulty bcBad.chain = false ∧
    isChainValid 0 [mkBlock 0 "t0" [] "0" 0,
      mkBlock 1 "t1" [("origin", .s "Farm A"), ("coffee_batch", .s "BATCH-001")]
        "12e0eba3ee26ade64cf95f4b195c5ba90156aa927802b2e072a0615adbc6d5e5" 0] = true :=
  ⟨rfl, by decide, by decide, by decide⟩

end CoffeeChain


namespace CoffeeChain

/-! ## C9 and C10: query semantics -/

theorem scanOrigin_eq_filter {q : String} : ∀ {l : List Block},
    originsOkb l = true → scanOrigin q l = some (l.filter (originMatch q)) := by
  intro l
  induction l with
  | nil => intro _; rfl
  | cons b rest ih =>
    intro h
    rw [originsOkb, List.all_cons, Bool.and_eq_true] at h
    obtain ⟨hb, hrest⟩ := h
    rw [scanOrigin]
    cases hob : originLower b.data with
    | none => rw [hob] at hb; simp at hb
    | some lx =>
      have hmatch : originMatch q b = (lx == strLower q) := by
        rw [originMatch, hob]
      rw [ih hrest, List.filter_cons, hmatch]

theorem strLower_empty : strLower "" = "" := rfl

theorem strLower_eq_empty_iff {x : String} : strLower x = "" ↔ x = "" := by
  constructor
  · intro h
    have hd := congrArg String.data h
    simp only [strLower] at hd
    obtain ⟨l⟩ := x
    exact String.ext (List.map_eq_nil_iff.mp hd)
  · intro h
    rw [h]
    rfl

/-- **C9.** `get_entry_by_batch` returns exactly the non-genesis blocks whose
payload has a string value at "coffee_batch" equal to the query (exact
match), `get_entry_by_origin` (on a chain whose origins are strings or
absent, so the scan cannot raise) returns exactly the non-genesis blocks
whose origin — defaulting to "" when absent — equals the query after
lowercasing both sides (case-insensitive exact match, not substring), and
both return `None`, distinguishable from a present-but-empty list, exactly
when no block matches. -/
theorem query_semantics (bc : Blockchain) (q o : String)
    (ho : originsOkb (bc.chain.drop 1) = true) :
    (getEntryByBatch bc q =
      (if (bc.chain.drop 1).filter (batchMatch q) = [] then none
       else some ((bc.chain.drop 1).filter (batchMatch q)))) ∧
    (getEntryByBatch bc q = none ↔ ∀ b ∈ bc.chain.drop 1, batchMatch q b = false) ∧
    (∀ b : Block, batchMatch q b = true ↔ dictGet b.data "coffee_batch" = some (JVal.s q)) ∧
    (getEntryByOrigin bc o =
      some (if (bc.chain.drop 1).filter (originMatch o) = [] then none
            else some ((bc.chain.drop 1).filter (originMatch o)))) ∧
    (getEntryByOrigin bc o = some none ↔ ∀ b ∈ bc.chain.drop 1, originMatch o b = false) ∧
    (∀ (b : Block) (x : String), dictGet b.data "origin" = some (JVal.s x) →
      (originMatch o b = true ↔ strLower x = strLower o)) := by
  have hbatch : ∀ b : Block, batchMatch q b = true ↔
      dictGet b.data "coffee_batch" = some (JVal.s q) := by
    intro b
    cases hd : dictGet b.data "coffee_batch" with
    | none => simp [batchMatch, hd]
    | some v =>
      cases v with
      | s x => simp [batchMatch, hd, beq_iff_eq]
      | n i => simp [batchMatch, hd]
      | arr xs => simp [batchMatch, hd]
  have horigin : getEntryByOrigin bc o =
      some (if (bc.chain.drop 1).filter (originMatch o) = [] then none
            else some ((bc.chain.drop 1).filter (originMatch o))) := by
    rw [getEntryByOrigin, scanOrigin_eq_filter ho]
  refine ⟨rfl, ?_, hbatch, horigin, ?_, ?_⟩
  · rw [getEntryByBatch]
    by_cases hnil : (bc.chain.drop 1).filter (batchMatch q) = []
    · simp only [hnil, if_pos]
      simp only [List.filter_eq_nil_iff] at hnil
      simp only [true_iff]
      exact fun b hb => Bool.eq_false_iff.mpr (hnil b hb)
    · simp only [if_neg hnil]
      simp only [List.filter_eq_nil_iff] at hnil
      constructor
      · intro h; cases h
      · intro h
        exact absurd (fun b hb => Bool.eq_false_iff.mp (h b hb)) hnil
  · rw [horigin]
    by_cases hnil : (bc.chain.drop 1).filter (originMatch o) = []
    · simp only [hnil, if_pos]
      simp only [List.filter_eq_nil_iff] at hnil
      simp only [Option.some.injEq, true_iff]
      exact fun b hb => Bool.eq_false_iff.mpr (hnil b hb)
    · simp only [if_neg hnil]
      simp only [List.filter_eq_nil_iff] at hnil
      constructor
      · intro h
        simp only [Option.some.injEq] at h
        cases h
      · intro h
        exact absurd (fun b hb => Bool.eq_false_iff.mp (h b hb)) hnil
  · intro b x hd
    rw [originMatch, originLower, hd]
    exact beq_iff_eq

/-- C9 witness: the spec's own example on the concrete chain — exact batch
match, case-insensitive origin match ("Farm B" finds the block whose origin
is "farm b"), and an absent result for a missing batch. -/
theorem query_semantics_w :
    originsOkb (bcW.chain.drop 1) = true ∧
    getEntryByBatch bcW "BATCH-001" = some [b1W] ∧
    getEntryByOrigin bcW "Farm B" = some (some [b2W]) ∧
    getEntryByBatch bcW "MISSING" = none := by
  have ho : originsOkb (bcW.chain.drop 1) = true := by decide
  exact ⟨ho, by decide, by decide,
    (query_semantics bcW "MISSING" "Farm B" ho).2.1.mpr (by decide)⟩

/-- **C10.** A non-genesis block without an "origin" key is treated as
having the empty-string origin: it matches exactly the empty origin query
(as does an explicit origin ""), the empty query returns exactly those
blocks, and no non-empty query ever returns such a block. -/
theorem missing_origin_as_empty (bc : Blockchain) (q : String)
    (ho : originsOkb (bc.chain.drop 1) = true) (hq : q ≠ "") :
    (∀ b ∈ bc.chain.drop 1, (originMatch "" b = true ↔
       (dictGet b.data "origin" = none ∨ dictGet b.data "origin" = some (JVal.s "")))) ∧
    (∀ b ∈ bc.chain.drop 1,
       (dictGet b.data "origin" = none ∨ dictGet b.data "origin" = some (JVal.s "")) →
       originMatch q b = false) ∧
    (∀ l, getEntryByOrigin bc "" = some (some l) →
       ∀ b, b ∈ l ↔ (b ∈ bc.chain.drop 1 ∧
         (dictGet b.data "origin" = none ∨ dictGet b.data "origin" = some (JVal.s "")))) ∧
    (∀ l b, getEntryByOrigin bc q = some (some l) → b ∈ l →
       ¬(dictGet b.data "origin" = none ∨ dictGet b.data "origin" = some (JVal.s ""))) := by
  have hql : strLower q ≠ "" := fun h => hq (strLower_eq_empty_iff.mp h)
  have hmargin : ∀ b ∈ bc.chain.drop 1, (originMatch "" b = true ↔
      (dictGet b.data "origin" = none ∨ dictGet b.data "origin" = some (JVal.s ""))) := by
    intro b hb
    have hok := List.all_eq_true.mp ho b hb
    cases hd : dictGet b.data "origin" with
    | none => simp [originMatch, originLower, hd]
    | some v =>
      cases v with
      | s x =>
        simp [originMatch, originLower, hd, beq_iff_eq, strLower_empty,
          strLower_eq_empty_iff]
      | n i => rw [originLower, hd] at hok; simp at hok
      | arr xs => rw [originLower, hd] at hok; simp at hok
  have hnever : ∀ b ∈ bc.chain.drop 1,
      (dictGet b.data "origin" = none ∨ dictGet b.data "origin" = some (JVal.s "")) →
      originMatch q b = false := by
    intro b hb h
    rcases h with h | h
    · rw [originMatch, originLower, h]
      show (strLower "" == strLower q) = false
      exact Bool.eq_false_iff.mpr (fun hc => hql (beq_iff_eq.mp hc).symm)
    · rw [originMatch, originLower, h]
      show (strLower "" == strLower q) = false
      exact Bool.eq_false_iff.mpr (fun hc => hql (beq_iff_eq.mp hc).symm)
  refine ⟨hmargin, hnever, ?_, ?_⟩
  · intro l hl b
    rw [getEntryByOrigin, scanOrigin_eq_filter ho] at hl
    have hl2 : some (if (bc.chain.drop 1).filter (originMatch "") = []
        then (none : Option (List Block))
        else some ((bc.chain.drop 1).filter (originMatch ""))) = some (some l) := hl
    injection hl2 with hl3
    by_cases hnil : (bc.chain.drop 1).filter (originMatch "") = []
    · rw [if_pos hnil] at hl3
      cases hl3
    · rw [if_neg hnil] at hl3
      injection hl3 with hl4
      subst hl4
      rw [List.mem_filter]
      constructor
      · rintro ⟨h1, h2⟩
        exact ⟨h1, (hmargin b h1).mp h2⟩
      · rintro ⟨h1, h2⟩
        exact ⟨h1, (hmargin b h1).mpr h2⟩
  · intro l b hl hbl h
    rw [getEntryByOrigin, scanOrigin_eq_filter ho] at hl
    have hl2 : some (if (bc.chain.drop 1).filter (originMatch q) = []
        then (none : Option (List Block))
        else some ((bc.chain.drop 1).filter (originMatch q))) = some (some l) := hl
    injection hl2 with hl3
    by_cases hnil : (bc.chain.drop 1).filter (originMatch q) = []
    · rw [if_pos hnil] at hl3
      cases hl3
    · rw [if_neg hnil] at hl3
      injection hl3 with hl4
      subst hl4
      obtain ⟨h1, h2⟩ := List.mem_filter.mp hbl
      rw [hnever b h1 h] at h2
      cases h2

/-- C10 witness: on the concrete chain, the block without an "origin" key is
returned exactly by the empty query and never by "Farm A". -/
theorem missing_origin_as_empty_w :
    originsOkb (bcW.chain.drop 1) = true ∧
    ("Farm A" : String) ≠ "" ∧
    dictGet b3W.data "origin" = none ∧
    getEntryByOrigin bcW "" = some (some [b3W]) ∧
    originMatch "Farm A" b3W = false :=
  ⟨by decide, by decide, by decide, by decide,
   (missing_origin_as_empty bcW "Farm A" (by decide) (by decide)).2.1 b3W
     (by decide) (Or.inl (by decide))⟩

end CoffeeChain


namespace CoffeeChain

/-! ## C1: tamper detection -/

/-- The `is_chain_valid` verdict on the pair ending at position `j` — "the
validation outcome for block j" (`none` for the genesis position 0, which is
never checked, and for out-of-range positions). -/
def pairCheckAt (d : Nat) (ch : List Block) (j : Nat) : Option Bool :=
  if j = 0 then none
  else match (ch[j - 1]?), (ch[j]?) with
       | some pb, some cur => some (pairOk d pb cur)
       | _, _ => none

/-- The pair check reads only the predecessor's stored hash. -/
theorem pairOk_ext {d : Nat} {pb1 pb2 cur : Block} (h : pb1.hash = pb2.hash) :
    pairOk d pb1 cur = pairOk d pb2 cur := by
  unfold pairOk
  rw [h]

/-- **C1 amended.** Replacing a non-genesis block of any chain by one with
the same stored hash (mutating its payload, index, timestamp, nonce or
previous_hash) whose recomputed hash differs — as any mutation of a
committed block does, barring a SHA-256 collision — makes `is_chain_valid`
return false, and leaves the per-block validation outcome of every other
position unchanged. (Mutating the genesis block, by contrast, is never
detected: the counterexample.) -/
theorem tamper_detected_nongenesis (d : Nat) (ch : List Block) (i : Nat)
    (b2 : Block) (hi : 1 ≤ i) (hlen : i < ch.length)
    (hstored : b2.hash = (ch.get ⟨i, hlen⟩).hash)
    (hchanged : blockHash b2 ≠ (ch.get ⟨i, hlen⟩).hash) :
    isChainValid d (ch.set i b2) = false ∧
    ∀ j, j ≠ i → pairCheckAt d (ch.set i b2) j = pairCheckAt d ch j := by
  simp only [List.get_eq_getElem] at hstored hchanged
  constructor
  · by_contra hcv
    rw [Bool.not_eq_false] at hcv
    have hch := isChainValid_iff_chain'.mp hcv
    rw [List.chain'_iff_get] at hch
    have hlen2 : i - 1 < (ch.set i b2).length - 1 := by
      rw [List.length_set]
      omega
    have hpair := hch (i - 1) hlen2
    simp only [List.get_eq_getElem] at hpair
    have hi1 : i - 1 + 1 = i := by omega
    simp only [hi1] at hpair
    rw [List.getElem_set_ne (by omega), List.getElem_set_self] at hpair
    have hb2 := (pairOk_iff.mp hpair).1
    rw [hstored] at hb2
    exact hchanged hb2.symm
  · intro j hj
    unfold pairCheckAt
    by_cases hj0 : j = 0
    · rw [if_pos hj0, if_pos hj0]
    · rw [if_neg hj0, if_neg hj0]
      have hsetj : ((ch.set i b2)[j]?) = (ch[j]?) := by
        rw [List.getElem?_set, if_neg (fun he => hj he.symm)]
      by_cases hji : j - 1 = i
      · have h1 : ((ch.set i b2)[j - 1]?) = some b2 := by
          rw [List.getElem?_set, if_pos hji.symm, if_pos hlen]
        have h2 : (ch[j - 1]?) = some (ch.get ⟨i, hlen⟩) := by
          rw [hji, List.getElem?_eq_getElem hlen, List.get_eq_getElem]
        rw [hsetj, h1, h2]
        cases hcj : (ch[j]?) with
        | none => rfl
        | some cur =>
          simp only [Option.some.injEq]
          exact pairOk_ext hstored
      · have h1 : ((ch.set i b2)[j - 1]?) = (ch[j - 1]?) := by
          rw [List.getElem?_set, if_neg (fun he => hji he.symm)]
        rw [hsetj, h1]

end CoffeeChain

namespace CoffeeChain

/-- The genesis block with a tampered payload and untouched stored hash. -/
def gMut : Block :=
  { createGenesis "2025-01-01T00:00:00" with
    data := [("type", .s "genesis"), ("message", .s "TAMPERED")] }

/-- **C1 counterexample.** On the freshly constructed (committed) one-block
ledger, tampering the genesis payload is a genuine mutation — the payload
differs and the recomputed hash differs — yet the next `is_chain_valid`
still returns `true`: mutations of the genesis block are never detected,
contradicting the claim's "including the genesis block at index 0". -/
theorem tamper_genesis_undetected_cx :
    Committed (initBlockchain "2025-01-01T00:00:00" none) ∧
    (initBlockchain "2025-01-01T00:00:00" none).chain =
      [createGenesis "2025-01-01T00:00:00"] ∧
    gMut.data ≠ (createGenesis "2025-01-01T00:00:00").data ∧
    gMut.hash = (createGenesis "2025-01-01T00:00:00").hash ∧
    blockHash gMut ≠ blockHash (createGenesis "2025-01-01T00:00:00") ∧
    isChainValid (initBlockchain "2025-01-01T00:00:00" none).difficulty [gMut] = true :=
  ⟨Committed.fresh _, rfl, by decide, rfl, by decide, rfl⟩

/-- The second witness block with a tampered payload and untouched stored
hash. -/
def b1Mut : Block :=
  { b1W with
    data := [("origin", .s "Farm A"), ("coffee_batch", .s "TAMPERED"),
             ("quality_grade", .s "F")] }

/-- C1 witness: tampering the payload of the non-genesis block at position 1
of the concrete 4-block chain flips `is_chain_valid` to `false`. -/
theorem tamper_detected_nongenesis_w :
    b1Mut.hash = (bcW.chain.get ⟨1, by decide⟩).hash ∧
    blockHash b1Mut ≠ (bcW.chain.get ⟨1, by decide⟩).hash ∧
    isChainValid 0 (bcW.chain.set 1 b1Mut) = false := by
  have hch : blockHash b1Mut ≠ (bcW.chain.get ⟨1, by decide⟩).hash := by decide
  exact ⟨rfl, hch,
    (tamper_detected_nongenesis 0 bcW.chain 1 b1Mut (by decide) (by decide) rfl hch).1⟩

end CoffeeChain
